import Mathlib

/-!
Verification of the sentence-compression data pipeline
(`compression_data.py`): sentence-token extraction, compression-text
normalization, and greedy KEEP/DELETE alignment labeling.

Python strings are modelled as Lean `String`s, with the slicing and
case operations of the source expressed on the underlying character
list (`String.data`), matching Python's character-wise semantics.
-/

/-- `s.lower()`: lowercase every character. -/
def pyLower (s : String) : String := ⟨s.data.map Char.toLower⟩

/-- `s[:-1]` on a string: drop the last character (empty stays empty). -/
def pyDropLastChar (s : String) : String := ⟨s.data.dropLast⟩

/-- `s[n:]`: drop the first `n` characters. -/
def pyDropStr (s : String) (n : Nat) : String := ⟨s.data.drop n⟩

/-- `s[:-n]`: drop the last `n` characters (clamped, as in Python). -/
def pyDropRightStr (s : String) (n : Nat) : String := ⟨s.data.take (s.data.length - n)⟩

/-- `s[-n:]`: the last `n` characters (clamped, as in Python). -/
def pyTakeRightStr (s : String) (n : Nat) : String := ⟨s.data.drop (s.data.length - n)⟩

/-- `s.startswith(p)`. -/
def pyStartsWith (s p : String) : Bool := p.data.isPrefixOf s.data

/-- `s.endswith(p)`. -/
def pyEndsWith (s p : String) : Bool := p.data.isSuffixOf s.data

/-- `s.split(" ")` on the character list: split at every single space;
`"".split(" ") == [""]` in Python, hence the base case `[[]]`. -/
def splitOnSpace : List Char → List (List Char)
  | [] => [[]]
  | c :: cs =>
    if c = ' ' then [] :: splitOnSpace cs
    else
      match splitOnSpace cs with
      | [] => [[c]]
      | t :: ts => (c :: t) :: ts

/-- `s.split(" ")`. -/
def pySplitSpace (s : String) : List String := (splitOnSpace s.data).map fun l => ⟨l⟩

/-- A word entry of the token graph: the tuple
`(word["id"], word["form"], word["tag"], word["stem"])`. -/
structure Word where
  id : Int
  form : String
  tag : String
  stem : String
deriving DecidableEq, Repr

/-- A node of `graph.node`, holding its `word` collection. -/
structure GNode where
  word : List Word
deriving DecidableEq, Repr

/-- One input record: the token graph's nodes plus the compression text
(`graph.sentence` is carried but unused by the core). -/
structure Record where
  sentence : String
  node : List GNode
  compressionText : String
deriving DecidableEq, Repr

/-- The output `Token` namedtuple: `form tag stem label`. -/
structure Token where
  form : String
  tag : String
  stem : String
  label : Nat
deriving DecidableEq, Repr

/-- Label encoding: 0 means KEEP. -/
def KEEP : Nat := 0

/-- Label encoding: 1 means DELETE. -/
def DELETE : Nat := 1

/-- Sentence-token recovery from the graph (`compression_json_to_example`,
extraction part): flatten all `word` entries of all nodes, keep those with
`id != -1` (CPython's `is not -1` is value inequality on small ints), and
sort ascending by `id`. -/
def extract_sentence_tokens (r : Record) : List Word :=
  List.insertionSort (fun a b => a.id ≤ b.id)
    ((r.node.flatMap fun n => n.word).filter fun w => w.id ≠ -1)

/-- The while-loop of `get_labels`: labels start at `1` (DELETE); on a
string match the position becomes `0` (KEEP) and both cursors advance,
otherwise only the sentence cursor advances. -/
def labelLoop : List String → List String → List Nat
  | [], _ => []
  | _ :: ss, [] => DELETE :: labelLoop ss []
  | s :: ss, c :: cs =>
    if s = c then KEEP :: labelLoop ss cs
    else DELETE :: labelLoop ss (c :: cs)

/-- `get_labels`: asserts `len(sentence_tokens) >= len(compression_tokens)`
(modelled as `none` on assertion failure), then runs the two-cursor loop. -/
def get_labels (sentence_tokens compression_tokens : List String) : Option (List Nat) :=
  if compression_tokens.length ≤ sentence_tokens.length then
    some (labelLoop sentence_tokens compression_tokens)
  else none

/-- The `special_abbreviations` table (the source lists `"mass"` twice
with the same value; a dict keeps one entry). -/
def special_abbreviations : List (String × String) :=
  [("co", "co."), ("corp", "corp."), ("ltd", "ltd."), ("inc", "inc."),
   ("va", "va."), ("wis", "wis."), ("pa", "pa."), ("st", "st."),
   ("mass", "mass."), ("ont", "ont."), ("v", "v."), ("calif", "calif."),
   ("app", "app.")]

/-- `if token.endswith(","): token = token[:-1]`. -/
def commaStep (token : String) : String :=
  if pyEndsWith token "," then pyDropRightStr token 1 else token

/-- The abbreviation rewrite: if the token is a table key and its
punctuated form occurs in the sentence token-form set, replace it. -/
def abbrevStep (token_forms : List String) (token : String) : String :=
  match special_abbreviations.lookup token with
  | some mapped => if mapped ∈ token_forms then mapped else token
  | none => token

/-- The `if/elif` cascade of `get_compression_tokens` that turns one raw
token into zero, one, two or three emitted tokens. -/
def emitToken (token : String) : List String :=
  if token = "'s" then [token]
  else if pyEndsWith token "'s" then [pyDropRightStr token 2, pyTakeRightStr token 2]
  else if pyEndsWith token "n't" then [pyDropRightStr token 3, pyTakeRightStr token 3]
  else if pyEndsWith token "%" then [pyDropRightStr token 1, pyTakeRightStr token 1]
  else if token = "-" then []
  else if token = ":" then []
  else if token = ";" then []
  else if token = "" then []
  else if token = "/" then []
  else if token = "!" then []
  else if token = "different." then ["different"]
  else if token = "prisoner." then ["prisoner"]
  else if token = "bar." then ["bar"]
  else if token = "declared." then ["declared"]
  else if pyStartsWith token "``" && pyEndsWith token "''" then
    ["``", pyDropRightStr (pyDropStr token 2) 2, "''"]
  else if pyStartsWith token "(" then [pyDropStr token 1]
  else if pyEndsWith token ")" then [pyDropRightStr token 1]
  else if pyEndsWith token "?" then [pyDropRightStr token 1]
  else [token]

/-- `get_compression_tokens`: lowercase the compression text, strip its
terminating character, split on single spaces, and push every raw token
through the comma strip, the abbreviation rewrite and the emit cascade. -/
def get_compression_tokens (sentence_tokens : List Word) (compression : String) :
    List String :=
  let token_forms := sentence_tokens.map fun t => pyLower t.form
  (pySplitSpace (pyDropLastChar (pyLower compression))).flatMap fun token =>
    emitToken (abbrevStep token_forms (commaStep token))

/-- `compression_json_to_example`: extract and sort the sentence tokens,
normalize the compression, label, and zip labels with tokens (`none`
models the assertion failure inside `get_labels`). -/
def compression_json_to_example (r : Record) : Option (List Token) :=
  let sentence_tokens := extract_sentence_tokens r
  let compression_tokens := get_compression_tokens sentence_tokens r.compressionText
  let lowercase_tokens := sentence_tokens.map fun t => pyLower t.form
  match get_labels lowercase_tokens compression_tokens with
  | none => none
  | some labels =>
    some ((labels.zip sentence_tokens).map fun p =>
      { form := p.2.form, tag := p.2.tag, stem := p.2.stem, label := p.1 })

/-- Truthiness of the Python `limit` argument: `None` and `0` are falsy. -/
def limitTruthy : Option Int → Prop
  | none => False
  | some n => n ≠ 0

instance : DecidablePred limitTruthy := fun l => by
  cases l with
  | none => exact isFalse (fun h => h)
  | some n => exact inferInstanceAs (Decidable (n ≠ 0))

/-- The loop of `load_compression_data`: append each record's example,
and break once `limit` is truthy and the example count equals it. -/
def loadLoop (limit : Option Int) : List Record → List (List Token) →
    Option (List (List Token))
  | [], acc => some acc
  | r :: rs, acc =>
    match compression_json_to_example r with
    | none => none
    | some e =>
      if limitTruthy limit ∧ ((acc.length + 1 : Nat) : Int) = limit.getD 0 then
        some (acc ++ [e])
      else loadLoop limit rs (acc ++ [e])

/-- `load_compression_data`, with the decoded record stream passed in
place of the gzip path. -/
def load_compression_data (records : List Record) (limit : Option Int) :
    Option (List (List Token)) :=
  loadLoop limit records []

/-- The forms of the sentence positions labeled KEEP, in order. -/
def keepForms (s : List String) (labels : List Nat) : List String :=
  ((s.zip labels).filter fun p => p.2 == KEEP).map fun p => p.1

/-- The asserted precondition of `get_labels`, phrased on a record: the
compression token count does not exceed the sentence token count. -/
def lengthPrecondition (r : Record) : Prop :=
  (get_compression_tokens (extract_sentence_tokens r) r.compressionText).length ≤
    (extract_sentence_tokens r).length

instance : DecidablePred lengthPrecondition := fun _ =>
  inferInstanceAs (Decidable (_ ≤ _))

/-- The example produced for a record when the assertion holds (the total
core of `compression_json_to_example`). -/
def exampleOf (r : Record) : List Token :=
  let sentence_tokens := extract_sentence_tokens r
  let compression_tokens := get_compression_tokens sentence_tokens r.compressionText
  let labels := labelLoop (sentence_tokens.map fun t => pyLower t.form) compression_tokens
  (labels.zip sentence_tokens).map fun p =>
    { form := p.2.form, tag := p.2.tag, stem := p.2.stem, label := p.1 }

instance : DecidableRel (fun a b : Word => a.id ≤ b.id) := fun a b =>
  inferInstanceAs (Decidable (a.id ≤ b.id))

instance : IsTotal Word (fun a b => a.id ≤ b.id) :=
  ⟨fun a b => Int.le_total a.id b.id⟩

instance : IsTrans Word (fun a b => a.id ≤ b.id) :=
  ⟨fun _ _ _ hab hbc => le_trans hab hbc⟩

/-- A record whose single graph node yields two word entries sharing
identifier `0`. -/
def recDup : Record :=
  ⟨"s", [⟨[⟨0, "a", "T", "a"⟩, ⟨0, "b", "T", "b"⟩]⟩], "."⟩

/-- A record whose word entries carry distinct identifiers, listed out of
order. -/
def recDistinct : Record :=
  ⟨"s", [⟨[⟨1, "b", "T", "b"⟩, ⟨0, "a", "T", "a"⟩]⟩], "."⟩

/-- The sentence tokens of the spec's example scenario 1. -/
def exTokens : List Word :=
  [⟨0, "The", "DT", "the"⟩, ⟨1, "co.", "NN", "co."⟩, ⟨2, "filed", "VBD", "file"⟩]

/-- A record with an empty token graph and a bare terminating character
as compression text; it satisfies the length precondition trivially. -/
def recNull : Record := ⟨"", [], "."⟩

/-- The text formed from a token sequence by joining with single spaces
(the compression text minus its terminating character). -/
def renderTokens : List String → String
  | [] => ""
  | [t] => t
  | t :: ts => t ++ " " ++ renderTokens ts

/-- A token carrying no further special characters: it is already
lowercase and space-free, and every stage of the normalizer leaves it
alone — no trailing comma to strip, no applicable abbreviation rewrite,
and the splitting cascade emits it unchanged. -/
def isNormalToken (token_forms : List String) (t : String) : Prop :=
  t.data.map Char.toLower = t.data ∧ ' ' ∉ t.data ∧
    commaStep t = t ∧ abbrevStep token_forms t = t ∧ emitToken t = [t]

instance (forms : List String) (t : String) : Decidable (isNormalToken forms t) := by
  unfold isNormalToken
  infer_instance

example : labelLoop ["a", "b", "c"] ["b"] = [1, 0, 1] := by decide
example : get_labels ["a"] ["a", "b"] = none := by decide
example : pySplitSpace "a b" = ["a", "b"] := by decide
example : pySplitSpace "" = [""] := by decide
example : emitToken "(abc)" = ["abc)"] := by decide
example : emitToken "abc)" = ["abc"] := by decide
example : emitToken "50%" = ["50", "%"] := by decide
example : commaStep "co," = "co" := by decide
example :
    get_compression_tokens
      [⟨0, "The", "DT", "the"⟩, ⟨1, "co.", "NN", "co."⟩, ⟨2, "filed", "VBD", "file"⟩]
      "The co. filed." = ["the", "co.", "filed"] := by decide

theorem labelLoop_length : ∀ s c : List String, (labelLoop s c).length = s.length
  | [], _ => rfl
  | _ :: ss, [] => by simp [labelLoop, labelLoop_length ss []]
  | s :: ss, c :: cs => by
    by_cases h : s = c
    · simp [labelLoop, h, labelLoop_length ss cs]
    · simp [labelLoop, h, labelLoop_length ss (c :: cs)]

theorem labelLoop_mem :
    ∀ s c : List String, ∀ l ∈ labelLoop s c, l = KEEP ∨ l = DELETE
  | [], _ => by simp [labelLoop]
  | s :: ss, [] => by
    simp only [labelLoop, List.mem_cons]
    rintro l (rfl | hl)
    · exact Or.inr rfl
    · exact labelLoop_mem ss [] l hl
  | s :: ss, c :: cs => by
    by_cases h : s = c
    · simp only [labelLoop, if_pos h, List.mem_cons]
      rintro l (rfl | hl)
      · exact Or.inl rfl
      · exact labelLoop_mem ss cs l hl
    · simp only [labelLoop, if_neg h, List.mem_cons]
      rintro l (rfl | hl)
      · exact Or.inr rfl
      · exact labelLoop_mem ss (c :: cs) l hl

theorem keepForms_cons_keep (s : String) (ss : List String) (L : List Nat) :
    keepForms (s :: ss) (KEEP :: L) = s :: keepForms ss L := by
  simp [keepForms, KEEP]

theorem keepForms_cons_del (s : String) (ss : List String) (L : List Nat) :
    keepForms (s :: ss) (DELETE :: L) = keepForms ss L := by
  simp [keepForms, KEEP, DELETE]

theorem count_keep_cons_keep (L : List Nat) :
    (KEEP :: L).count KEEP = L.count KEEP + 1 := by
  simp

theorem count_keep_cons_del (L : List Nat) :
    (DELETE :: L).count KEEP = L.count KEEP := by
  simp [KEEP, DELETE]

theorem keepForms_labelLoop :
    ∀ s c : List String,
      keepForms s (labelLoop s c) = c.take ((labelLoop s c).count KEEP) ∧
        (labelLoop s c).count KEEP ≤ c.length
  | [], c => by simp [labelLoop, keepForms]
  | s :: ss, [] => by
    obtain ⟨ih1, ih2⟩ := keepForms_labelLoop ss []
    have hl : labelLoop (s :: ss) [] = DELETE :: labelLoop ss [] := rfl
    rw [hl, keepForms_cons_del, count_keep_cons_del]
    exact ⟨by rw [ih1], ih2⟩
  | s :: ss, c :: cs => by
    by_cases h : s = c
    · obtain ⟨ih1, ih2⟩ := keepForms_labelLoop ss cs
      have hl : labelLoop (s :: ss) (c :: cs) = KEEP :: labelLoop ss cs := by
        simp [labelLoop, h]
      rw [hl, keepForms_cons_keep, count_keep_cons_keep, ih1, List.take_succ_cons, h]
      exact ⟨rfl, Nat.succ_le_succ ih2⟩
    · obtain ⟨ih1, ih2⟩ := keepForms_labelLoop ss (c :: cs)
      have hl : labelLoop (s :: ss) (c :: cs) = DELETE :: labelLoop ss (c :: cs) := by
        simp [labelLoop, h]
      rw [hl, keepForms_cons_del, count_keep_cons_del]
      exact ⟨ih1, ih2⟩

theorem compression_json_to_example_eq_exampleOf (r : Record)
    (h : lengthPrecondition r) :
    compression_json_to_example r = some (exampleOf r) := by
  have h' : (get_compression_tokens (extract_sentence_tokens r)
        r.compressionText).length ≤ (extract_sentence_tokens r).length := h
  simp [compression_json_to_example, exampleOf, get_labels, h']

/-- C2: `get_labels` hits its assertion (modelled as `none`) exactly when
the compression token count exceeds the sentence token count; otherwise it
returns normally. -/
theorem get_labels_fails_iff (s c : List String) :
    get_labels s c = none ↔ s.length < c.length := by
  unfold get_labels
  split
  · simp; omega
  · simp; omega

/-- C3: under the length precondition, `get_labels` returns the result of
the single forward-pass two-cursor greedy loop `labelLoop`; the sentence
forms at KEEP positions, read in order, are exactly a prefix of the
compression token sequence; and re-running on the same inputs yields
identical labels. -/
theorem get_labels_greedy_match (s c : List String) (h : c.length ≤ s.length) :
    get_labels s c = some (labelLoop s c) ∧
      (∃ k, k ≤ c.length ∧ keepForms s (labelLoop s c) = c.take k) ∧
      ∀ l₁ l₂, get_labels s c = some l₁ → get_labels s c = some l₂ → l₁ = l₂ := by
  refine ⟨by unfold get_labels; rw [if_pos h], ?_, ?_⟩
  · obtain ⟨h1, h2⟩ := keepForms_labelLoop s c
    exact ⟨(labelLoop s c).count KEEP, h2, h1⟩
  · intro l₁ l₂ e₁ e₂
    rw [e₁] at e₂
    exact Option.some.inj e₂

theorem get_labels_greedy_match_witness :
    (["b"] : List String).length ≤ (["a", "b"] : List String).length ∧
      (get_labels ["a", "b"] ["b"] = some (labelLoop ["a", "b"] ["b"]) ∧
        (∃ k, k ≤ (["b"] : List String).length ∧
          keepForms ["a", "b"] (labelLoop ["a", "b"] ["b"]) = (["b"] : List String).take k) ∧
        ∀ l₁ l₂, get_labels ["a", "b"] ["b"] = some l₁ →
          get_labels ["a", "b"] ["b"] = some l₂ → l₁ = l₂) :=
  ⟨by decide, get_labels_greedy_match ["a", "b"] ["b"] (by decide)⟩

/-- C4: the labeler produces exactly one binary label (`0` = KEEP,
`1` = DELETE) per sentence token, and under the length precondition the
emitted example has one `(form, tag, stem, label)` tuple per sentence
token. -/
theorem labels_count_invariant :
    (∀ s c : List String, (labelLoop s c).length = s.length ∧
        ∀ l ∈ labelLoop s c, l = KEEP ∨ l = DELETE) ∧
      ∀ r : Record, lengthPrecondition r →
        ∃ e, compression_json_to_example r = some e ∧
          e.length = (extract_sentence_tokens r).length ∧
          (e.map fun t => (t.form, t.tag, t.stem)) =
            ((extract_sentence_tokens r).map fun w => (w.form, w.tag, w.stem)) ∧
          ∀ t ∈ e, t.label = KEEP ∨ t.label = DELETE := by
  refine ⟨fun s c => ⟨labelLoop_length s c, labelLoop_mem s c⟩, fun r h => ?_⟩
  refine ⟨exampleOf r, compression_json_to_example_eq_exampleOf r h, ?_, ?_, ?_⟩
  · unfold exampleOf
    simp [labelLoop_length]
  · unfold exampleOf
    set st := extract_sentence_tokens r with hst
    set labels := labelLoop (st.map fun t => pyLower t.form)
      (get_compression_tokens st r.compressionText) with hlab
    have hlen : st.length ≤ labels.length := by
      rw [hlab, labelLoop_length, List.length_map]
    conv_rhs => rw [← List.map_snd_zip labels st hlen]
    simp only [List.map_map]
    rfl
  · intro t ht
    unfold exampleOf at ht
    simp only [List.mem_map] at ht
    obtain ⟨p, hp, rfl⟩ := ht
    exact labelLoop_mem _ _ p.1 (List.of_mem_zip hp).1

theorem labels_count_invariant_witness :
    lengthPrecondition ⟨"", [], "."⟩ ∧
      ∃ e, compression_json_to_example ⟨"", [], "."⟩ = some e ∧
        e.length = (extract_sentence_tokens ⟨"", [], "."⟩).length ∧
        (e.map fun t => (t.form, t.tag, t.stem)) =
          ((extract_sentence_tokens ⟨"", [], "."⟩).map fun w => (w.form, w.tag, w.stem)) ∧
        ∀ t ∈ e, t.label = KEEP ∨ t.label = DELETE :=
  ⟨by decide, labels_count_invariant.2 ⟨"", [], "."⟩ (by decide)⟩

/-- C5: a compression token that never matches is not an error — under the
length precondition, even when the greedy loop matches fewer than all
compression tokens, `get_labels` returns normally, the KEEP positions read
off exactly the matched prefix (so the unmatched tokens beyond it produce
no KEEP), and every non-KEEP position keeps the initial DELETE label. -/
theorem get_labels_soft_mismatch (s c : List String) (h : c.length ≤ s.length)
    (hunmatched : (labelLoop s c).count KEEP < c.length) :
    get_labels s c = some (labelLoop s c) ∧
      keepForms s (labelLoop s c) = c.take ((labelLoop s c).count KEEP) ∧
      (labelLoop s c).count KEEP < c.length ∧
      ∀ l ∈ labelLoop s c, l ≠ KEEP → l = DELETE := by
  refine ⟨by unfold get_labels; rw [if_pos h], (keepForms_labelLoop s c).1,
    hunmatched, fun l hl hne => ?_⟩
  rcases labelLoop_mem s c l hl with h0 | h1
  · exact absurd h0 hne
  · exact h1

theorem get_labels_soft_mismatch_witness :
    (["z"] : List String).length ≤ (["a", "b"] : List String).length ∧
      (labelLoop ["a", "b"] ["z"]).count KEEP < (["z"] : List String).length ∧
      (get_labels ["a", "b"] ["z"] = some (labelLoop ["a", "b"] ["z"]) ∧
        keepForms ["a", "b"] (labelLoop ["a", "b"] ["z"]) =
          (["z"] : List String).take ((labelLoop ["a", "b"] ["z"]).count KEEP) ∧
        (labelLoop ["a", "b"] ["z"]).count KEEP < (["z"] : List String).length ∧
        ∀ l ∈ labelLoop ["a", "b"] ["z"], l ≠ KEEP → l = DELETE) :=
  ⟨by decide, by decide,
    get_labels_soft_mismatch ["a", "b"] ["z"] (by decide) (by decide)⟩

/-- C1 (counterexample): extraction does not deduplicate — a graph node
yielding two word entries with identifier `0` produces two sentence
tokens with the same id, so the extracted sequence is not strictly
ascending and two emitted tokens do share an id. -/
theorem extract_dup_id_counterexample :
    ((extract_sentence_tokens recDup).map fun t => t.id) = [0, 0] ∧
      ∃ t₁ ∈ extract_sentence_tokens recDup, ∃ t₂ ∈ extract_sentence_tokens recDup,
        t₁ ≠ t₂ ∧ t₁.id = t₂.id := by decide

/-- C1 (amended): the extracted sequence is sorted ascending by `id`, but
only non-strictly — duplicates are not removed, so every candidate with a
given id is emitted; when the non-sentinel candidates carry pairwise
distinct ids the sequence is strictly ascending. -/
theorem extract_sorted_by_id (r : Record) :
    List.Sorted (fun a b : Word => a.id ≤ b.id) (extract_sentence_tokens r) ∧
      ((((r.node.flatMap fun n => n.word).filter fun w => w.id ≠ -1).map
          fun w => w.id).Nodup →
        List.Pairwise (fun a b : Word => a.id < b.id) (extract_sentence_tokens r)) := by
  constructor
  · exact List.sorted_insertionSort (fun a b : Word => a.id ≤ b.id) _
  · intro hnodup
    have hperm : List.Perm (extract_sentence_tokens r)
        ((r.node.flatMap fun n => n.word).filter fun w => w.id ≠ -1) :=
      List.perm_insertionSort _ _
    have hnodup' : ((extract_sentence_tokens r).map fun w => w.id).Nodup :=
      ((hperm.map fun w => w.id).nodup_iff).mpr hnodup
    have hne : List.Pairwise (fun a b : Word => a.id ≠ b.id)
        (extract_sentence_tokens r) := by
      have hpw : List.Pairwise (· ≠ ·)
          ((extract_sentence_tokens r).map fun w => w.id) := hnodup'
      exact List.pairwise_map.mp hpw
    have hle : List.Pairwise (fun a b : Word => a.id ≤ b.id)
        (extract_sentence_tokens r) :=
      List.sorted_insertionSort (fun a b : Word => a.id ≤ b.id) _
    exact (hle.and hne).imp fun h => lt_of_le_of_ne h.1 h.2

theorem extract_sorted_by_id_witness :
    List.Pairwise (fun a b : Word => a.id < b.id)
      (extract_sentence_tokens recDistinct) :=
  (extract_sorted_by_id recDistinct).2 (by decide)

/-- C7: no sentence token with the sentinel id `-1` is ever extracted,
wherever it sits in the token graph. -/
theorem extract_no_sentinel (r : Record) :
    ∀ t ∈ extract_sentence_tokens r, t.id ≠ -1 := by
  intro t ht
  unfold extract_sentence_tokens at ht
  rw [List.mem_insertionSort] at ht
  simpa using (List.mem_filter.mp ht).2

theorem extract_no_sentinel_witness : (⟨0, "a", "T", "a"⟩ : Word).id ≠ -1 :=
  extract_no_sentinel recDistinct ⟨0, "a", "T", "a"⟩ (by decide)

theorem lookup_mem :
    ∀ (l : List (String × String)) (a b : String),
      l.lookup a = some b → (a, b) ∈ l
  | [], _, _, h => by simp at h
  | (k, v) :: es, a, b, h => by
    rw [List.lookup_cons] at h
    by_cases hk : a = k
    · subst hk
      simp at h
      simp [h]
    · have hb : (a == k) = false := beq_false_of_ne hk
      rw [hb] at h
      exact List.mem_cons_of_mem _ (lookup_mem es a b h)

theorem special_abbreviations_val_ne_key :
    ∀ p ∈ special_abbreviations, p.2 ≠ p.1 := by decide

/-- C8: the abbreviation rewrite fires exactly when the punctuated form is
among the (lowercased) sentence token forms — if present the token becomes
the punctuated form (a genuine change, since no table value equals its
key), if absent it is left alone; and on the spec's example scenario the
normalizer yields `["the", "co.", "filed"]` with labels `[KEEP, KEEP, KEEP]`. -/
theorem abbrev_conditional_rewrite :
    (∀ (forms : List String) (t m : String),
        special_abbreviations.lookup t = some m →
          (m ∈ forms → abbrevStep forms t = m) ∧
            (m ∉ forms → abbrevStep forms t = t) ∧ m ≠ t) ∧
      get_compression_tokens exTokens "The co. filed." = ["the", "co.", "filed"] ∧
      get_labels (exTokens.map fun t => pyLower t.form)
          (get_compression_tokens exTokens "The co. filed.") =
        some [KEEP, KEEP, KEEP] := by
  refine ⟨fun forms t m hl => ⟨?_, ?_, ?_⟩, by decide, by decide⟩
  · intro hm
    unfold abbrevStep
    rw [hl]
    simp [hm]
  · intro hm
    unfold abbrevStep
    rw [hl]
    simp [hm]
  · exact special_abbreviations_val_ne_key (t, m) (lookup_mem _ _ _ hl)

theorem abbrev_conditional_rewrite_witness :
    special_abbreviations.lookup "co" = some "co." ∧
      (("co." ∈ (["co."] : List String) → abbrevStep ["co."] "co" = "co.") ∧
        ("co." ∉ (["x"] : List String) → abbrevStep ["x"] "co" = "co") ∧
        ("co." : String) ≠ "co") :=
  ⟨by decide,
    (abbrev_conditional_rewrite.1 ["co."] "co" "co." (by decide)).1,
    (abbrev_conditional_rewrite.1 ["x"] "co" "co." (by decide)).2.1,
    (abbrev_conditional_rewrite.1 ["x"] "co" "co." (by decide)).2.2⟩

/-- C9: among the splitting rules only the first match applies; when no
earlier rule matches, a token starting with `(` is emitted with only its
leading paren removed — even when it also ends with `)` — and a token not
starting with `(` but ending with `)` is emitted with only its trailing
paren removed; concretely `"(abc)"` becomes `"abc)"` and `"abc)"` becomes
`"abc"`. -/
theorem paren_rules_first_match (t : String)
    (h1 : t ≠ "'s") (h2 : pyEndsWith t "'s" = false)
    (h3 : pyEndsWith t "n't" = false) (h4 : pyEndsWith t "%" = false)
    (h5 : t ≠ "-") (h6 : t ≠ ":") (h7 : t ≠ ";") (h8 : t ≠ "")
    (h9 : t ≠ "/") (h10 : t ≠ "!")
    (h11 : t ≠ "different.") (h12 : t ≠ "prisoner.") (h13 : t ≠ "bar.")
    (h14 : t ≠ "declared.")
    (h15 : (pyStartsWith t "``" && pyEndsWith t "''") = false) :
    (pyStartsWith t "(" = true → emitToken t = [pyDropStr t 1]) ∧
      (pyStartsWith t "(" = false → pyEndsWith t ")" = true →
        emitToken t = [pyDropRightStr t 1]) ∧
      emitToken "(abc)" = ["abc)"] ∧ emitToken "abc)" = ["abc"] := by
  refine ⟨fun hs => ?_, fun hns he => ?_, by decide, by decide⟩
  · simp [emitToken, h1, h2, h3, h4, h5, h6, h7, h8, h9, h10, h11, h12, h13,
      h14, h15, hs]
  · simp [emitToken, h1, h2, h3, h4, h5, h6, h7, h8, h9, h10, h11, h12, h13,
      h14, h15, hns, he]

theorem paren_rules_first_match_witness :
    (pyStartsWith "(abc)" "(" = true → emitToken "(abc)" = [pyDropStr "(abc)" 1]) ∧
      (pyStartsWith "(abc)" "(" = false → pyEndsWith "(abc)" ")" = true →
        emitToken "(abc)" = [pyDropRightStr "(abc)" 1]) ∧
      emitToken "(abc)" = ["abc)"] ∧ emitToken "abc)" = ["abc"] :=
  paren_rules_first_match "(abc)" (by decide) (by decide) (by decide) (by decide)
    (by decide) (by decide) (by decide) (by decide) (by decide) (by decide)
    (by decide) (by decide) (by decide) (by decide) (by decide)

theorem loadLoop_not_truthy (lim : Option Int) (hnt : ¬ limitTruthy lim) :
    ∀ (rs : List Record) (acc : List (List Token)),
      (∀ r ∈ rs, lengthPrecondition r) →
      loadLoop lim rs acc = some (acc ++ rs.map exampleOf)
  | [], acc, _ => by simp [loadLoop]
  | r :: rs, acc, h => by
    have hr := compression_json_to_example_eq_exampleOf r (h r (List.mem_cons_self r rs))
    have hrest := loadLoop_not_truthy lim hnt rs (acc ++ [exampleOf r])
      (fun x hx => h x (List.mem_cons_of_mem r hx))
    simp only [loadLoop, hr]
    rw [if_neg (fun hc => hnt hc.1), hrest]
    simp

theorem loadLoop_truthy (n : Nat) :
    ∀ (rs : List Record) (acc : List (List Token)),
      (∀ r ∈ rs.take (n - acc.length), lengthPrecondition r) →
      acc.length < n →
      loadLoop (some (n : Int)) rs acc =
        some (acc ++ (rs.take (n - acc.length)).map exampleOf)
  | [], acc, _, _ => by simp [loadLoop]
  | r :: rs, acc, h, hlt => by
    have hpos : 0 < n - acc.length := Nat.sub_pos_of_lt hlt
    obtain ⟨k, hk⟩ : ∃ k, n - acc.length = k + 1 :=
      ⟨n - acc.length - 1, (Nat.succ_pred_eq_of_pos hpos).symm⟩
    have hr : lengthPrecondition r := by
      apply h r
      rw [hk, List.take_succ_cons]
      exact List.mem_cons_self r _
    have hre := compression_json_to_example_eq_exampleOf r hr
    have htruthy : limitTruthy (some (n : Int)) := by
      have : n ≠ 0 := by omega
      simpa [limitTruthy] using this
    simp only [loadLoop, hre]
    by_cases hbreak : ((acc.length + 1 : Nat) : Int) = (some (n : Int)).getD 0
    · rw [if_pos ⟨htruthy, hbreak⟩]
      have heq : acc.length + 1 = n := by
        have : ((acc.length + 1 : Nat) : Int) = (n : Int) := hbreak
        exact_mod_cast this
      have hk0 : k = 0 := by omega
      rw [hk, hk0, List.take_succ_cons, List.take_zero]
      simp
    · rw [if_neg (fun hc => hbreak hc.2)]
      have hne : acc.length + 1 ≠ n := by
        intro he
        apply hbreak
        show ((acc.length + 1 : Nat) : Int) = (n : Int)
        exact_mod_cast he
      have hlt' : (acc ++ [exampleOf r]).length < n := by
        simp only [List.length_append, List.length_singleton]
        omega
      have hsub : n - (acc ++ [exampleOf r]).length = k := by
        simp only [List.length_append, List.length_singleton]
        omega
      have h' : ∀ x ∈ rs.take (n - (acc ++ [exampleOf r]).length),
          lengthPrecondition x := by
        intro x hx
        apply h x
        rw [hk, List.take_succ_cons]
        rw [hsub] at hx
        exact List.mem_cons_of_mem r hx
      rw [loadLoop_truthy n rs (acc ++ [exampleOf r]) h' hlt', hsub, hk,
        List.take_succ_cons]
      simp

/-- C10: a falsy `limit` (`None` or `0`) disables truncation and the
loader emits one example per record; a positive `limit` `n` yields exactly
`min n (number of records)` examples — the first `n` records' examples —
and records beyond the one producing the `n`-th example are never
consumed (appending extra records after it cannot change the result). -/
theorem load_limit_semantics :
    (∀ records : List Record, (∀ r ∈ records, lengthPrecondition r) →
        load_compression_data records none = some (records.map exampleOf) ∧
          load_compression_data records (some 0) = some (records.map exampleOf)) ∧
      ∀ (records : List Record) (n : Nat), 0 < n →
        (∀ r ∈ records.take n, lengthPrecondition r) →
        load_compression_data records (some (n : Int)) =
            some ((records.take n).map exampleOf) ∧
          (∀ e, load_compression_data records (some (n : Int)) = some e →
            e.length = min n records.length) ∧
          ∀ extra, n ≤ records.length →
            load_compression_data (records ++ extra) (some (n : Int)) =
              load_compression_data records (some (n : Int)) := by
  constructor
  · intro records h
    constructor
    · rw [load_compression_data, loadLoop_not_truthy none (fun hf => hf) records [] h]
      simp
    · rw [load_compression_data,
        loadLoop_not_truthy (some 0) (fun hf => hf rfl) records [] h]
      simp
  · intro records n hn h
    have hmain : load_compression_data records (some (n : Int)) =
        some ((records.take n).map exampleOf) := by
      rw [load_compression_data,
        loadLoop_truthy n records [] (by simpa using h) (by simpa using hn)]
      simp
    refine ⟨hmain, ?_, ?_⟩
    · intro e he
      rw [hmain] at he
      cases he
      simp
    · intro extra hle
      have htake : (records ++ extra).take n = records.take n := by
        rw [List.take_eq_left_iff]
        exact Or.inr hle
      have hmain' : load_compression_data (records ++ extra) (some (n : Int)) =
          some (((records ++ extra).take n).map exampleOf) := by
        rw [load_compression_data, loadLoop_truthy n (records ++ extra) []
          (by simpa [htake] using h) (by simpa using hn)]
        simp
      rw [hmain', hmain, htake]

theorem load_limit_semantics_witness :
    load_compression_data [recNull, recNull] (some ((1 : Nat) : Int)) =
        some (([recNull, recNull].take 1).map exampleOf) ∧
      (∀ e, load_compression_data [recNull, recNull] (some ((1 : Nat) : Int)) = some e →
        e.length = min 1 [recNull, recNull].length) ∧
      ∀ extra, 1 ≤ ([recNull, recNull] : List Record).length →
        load_compression_data ([recNull, recNull] ++ extra) (some ((1 : Nat) : Int)) =
          load_compression_data [recNull, recNull] (some ((1 : Nat) : Int)) :=
  load_limit_semantics.2 [recNull, recNull] 1 (by decide) (by decide)

theorem splitOnSpace_cons_space (cs : List Char) :
    splitOnSpace (' ' :: cs) = [] :: splitOnSpace cs := by
  simp [splitOnSpace]

theorem splitOnSpace_cons_ne (c : Char) (hc : c ≠ ' ') (cs : List Char) :
    splitOnSpace (c :: cs) =
      match splitOnSpace cs with
      | [] => [[c]]
      | t :: ts => (c :: t) :: ts := by
  simp [splitOnSpace, hc]

theorem splitOnSpace_no_space : ∀ l : List Char, ' ' ∉ l → splitOnSpace l = [l]
  | [], _ => rfl
  | c :: cs, h => by
    have hc : c ≠ ' ' := fun he => h (he ▸ List.mem_cons_self c cs)
    rw [splitOnSpace_cons_ne c hc cs,
      splitOnSpace_no_space cs (fun hm => h (List.mem_cons_of_mem c hm))]

theorem splitOnSpace_append_space :
    ∀ t : List Char, ' ' ∉ t → ∀ r : List Char,
      splitOnSpace (t ++ ' ' :: r) = t :: splitOnSpace r
  | [], _, r => by rw [List.nil_append, splitOnSpace_cons_space]
  | c :: cs, h, r => by
    have hc : c ≠ ' ' := fun he => h (he ▸ List.mem_cons_self c cs)
    rw [List.cons_append, splitOnSpace_cons_ne c hc,
      splitOnSpace_append_space cs (fun hm => h (List.mem_cons_of_mem c hm)) r]

theorem renderTokens_data_cons (t t' : String) (ts : List String) :
    (renderTokens (t :: t' :: ts)).data =
      t.data ++ ' ' :: (renderTokens (t' :: ts)).data := by
  show (t ++ " " ++ renderTokens (t' :: ts)).data = _
  rw [String.data_append, String.data_append]
  simp

theorem splitOnSpace_render :
    ∀ ts : List String, ts ≠ [] → (∀ t ∈ ts, ' ' ∉ t.data) →
      splitOnSpace (renderTokens ts).data = ts.map fun t => t.data
  | [], hne, _ => absurd rfl hne
  | [t], _, h => by
    rw [show renderTokens [t] = t from rfl,
      splitOnSpace_no_space t.data (h t (List.mem_cons_self t []))]
    rfl
  | t :: t' :: ts, _, h => by
    rw [renderTokens_data_cons,
      splitOnSpace_append_space t.data (h t (List.mem_cons_self t _)) _,
      splitOnSpace_render (t' :: ts) (by simp)
        (fun x hx => h x (List.mem_cons_of_mem t hx))]
    rfl

theorem render_lower :
    ∀ ts : List String, (∀ t ∈ ts, t.data.map Char.toLower = t.data) →
      (renderTokens ts).data.map Char.toLower = (renderTokens ts).data
  | [], _ => rfl
  | [t], h => h t (List.mem_cons_self t [])
  | t :: t' :: ts, h => by
    have hsp : Char.toLower ' ' = ' ' := by decide
    rw [renderTokens_data_cons, List.map_append, List.map_cons,
      h t (List.mem_cons_self t _), hsp,
      render_lower (t' :: ts) (fun x hx => h x (List.mem_cons_of_mem t hx))]

theorem flatMap_id_of (f : String → List String) :
    ∀ l : List String, (∀ x ∈ l, f x = [x]) → l.flatMap f = l
  | [], _ => rfl
  | x :: xs, h => by
    rw [List.flatMap_cons, h x (List.mem_cons_self x xs),
      flatMap_id_of f xs (fun y hy => h y (List.mem_cons_of_mem x hy))]
    rfl

theorem pyLower_render_period (ts : List String)
    (h : ∀ t ∈ ts, t.data.map Char.toLower = t.data) :
    pyLower (renderTokens ts ++ ".") = renderTokens ts ++ "." := by
  have hdata : (renderTokens ts ++ ".").data.map Char.toLower =
      (renderTokens ts ++ ".").data := by
    rw [String.data_append, List.map_append, render_lower ts h]
    exact congrArg ((renderTokens ts).data ++ ·)
      (by decide : (".").data.map Char.toLower = (".").data)
  show (⟨(renderTokens ts ++ ".").data.map Char.toLower⟩ : String) =
    renderTokens ts ++ "."
  rw [hdata]

theorem pyDropLastChar_render_period (ts : List String) :
    pyDropLastChar (renderTokens ts ++ ".") = renderTokens ts := by
  show (⟨(renderTokens ts ++ ".").data.dropLast⟩ : String) = renderTokens ts
  rw [String.data_append, show (".").data = ['.'] from rfl, List.dropLast_concat]

theorem pySplitSpace_render (ts : List String) (hne : ts ≠ [])
    (h : ∀ t ∈ ts, ' ' ∉ t.data) : pySplitSpace (renderTokens ts) = ts := by
  unfold pySplitSpace
  rw [splitOnSpace_render ts hne h, List.map_map]
  have hid : ((fun l : List Char => (⟨l⟩ : String)) ∘ fun t : String => t.data) = id :=
    funext fun t => rfl
  rw [hid, List.map_id]

/-- C6: normalization is idempotent on already-normalized input — for a
token sequence with no further special characters, running the normalizer
on the text formed from it (joined with single spaces, plus the
terminating character it strips) returns the sequence unchanged. -/
theorem normalizer_idempotent (sentence_tokens : List Word) (ts : List String)
    (h : ∀ t ∈ ts, isNormalToken (sentence_tokens.map fun w => pyLower w.form) t) :
    get_compression_tokens sentence_tokens (renderTokens ts ++ ".") = ts := by
  cases ts with
  | nil =>
    simp only [get_compression_tokens]
    rw [show pySplitSpace (pyDropLastChar (pyLower (renderTokens ([] : List String) ++ "."))) =
      [""] from by decide]
    have hcomma : commaStep "" = "" := by decide
    have habbrev : abbrevStep (sentence_tokens.map fun w => pyLower w.form) "" = "" := by
      unfold abbrevStep
      rw [show special_abbreviations.lookup "" = none from by decide]
    have hemit : emitToken "" = [] := by decide
    simp [hcomma, habbrev, hemit]
  | cons t ts' =>
    have hne : (t :: ts' : List String) ≠ [] := by simp
    have hnosp : ∀ x ∈ t :: ts', ' ' ∉ x.data := fun x hx => (h x hx).2.1
    have hlow : ∀ x ∈ t :: ts', x.data.map Char.toLower = x.data :=
      fun x hx => (h x hx).1
    simp only [get_compression_tokens]
    rw [pyLower_render_period _ hlow, pyDropLastChar_render_period,
      pySplitSpace_render _ hne hnosp]
    exact flatMap_id_of _ _ fun x hx => by
      rw [(h x hx).2.2.1, (h x hx).2.2.2.1, (h x hx).2.2.2.2]

theorem normalizer_idempotent_witness :
    get_compression_tokens [] (renderTokens ["the", "cat"] ++ ".") = ["the", "cat"] :=
  normalizer_idempotent [] ["the", "cat"] (by decide)
